import Mathlib

/-!
Shallow embedding of the chat-log profiler (src/profiler.py).

Python strings are modelled as `List Char`; parsed JSON documents as the
inductive `Json`; a directory of export files as a `List PFile`, where each
file carries its basename and `Option Json` (`none` models a JSON parse
failure or an I/O read failure).  The embedded functions are:

  * `get_unique_authors` (profiler.py lines 20-44): the author-catalog
    builder, which scans every file and collects trimmed author names.
  * `parse_selection` (profiler.py lines 47-76): the selection parser,
    which turns a comma-separated token string into catalog names.
  * `extractRecords` (the record-extraction loop of `main`, profiler.py
    lines 91-120): emits one normalized record per qualifying message.

Python's in-loop exceptions are made explicit: `msg.get('author', {})`
raises `AttributeError` when `msg` is not a dict or when the value stored
under `'author'` is present but not a dict; the surrounding per-file
`try/except` then abandons the rest of that file's messages while keeping
the records already appended.  `extractMsg` returns `Except Unit` to model
exactly this.
-/

/-- A Python string, modelled as its list of characters. -/
abbrev Str := List Char

/-- The characters removed by Python's `str.strip()` (ASCII whitespace). -/
def pyIsSpace (c : Char) : Bool :=
  c = ' ' || c = '\t' || c = '\n' || c = '\r' || c = '\x0b' || c = '\x0c'

/-- Python `s.strip()`: remove leading and trailing whitespace. -/
def pyStrip (s : Str) : Str :=
  ((s.dropWhile pyIsSpace).reverse.dropWhile pyIsSpace).reverse

/-- Python `s.lower()` (ASCII case folding suffices for the `'all'` keyword). -/
def pyLower (s : Str) : Str := s.map Char.toLower

/-- Python `s.split(sep)` for a one-character separator: splitting the empty
string yields `[""]`, and consecutive separators yield empty fields. -/
def pySplit (sep : Char) : Str → List Str
  | [] => [[]]
  | c :: rest =>
    match pySplit sep rest with
    | [] => [[c]]
    | t :: ts => if c = sep then [] :: t :: ts else (c :: t) :: ts

/-- Numeric value of a string of decimal digits. -/
def digitsVal (s : Str) : Nat := s.foldl (fun n c => n * 10 + (c.toNat - 48)) 0

/-- Python `int(s)`: strip whitespace, allow one leading sign, then decimal
digits; any other shape raises `ValueError`, modelled as `none`. -/
def pyInt (s : Str) : Option Int :=
  match pyStrip s with
  | '-' :: ds =>
    if !ds.isEmpty && ds.all Char.isDigit then some (-(digitsVal ds : Int)) else none
  | '+' :: ds =>
    if !ds.isEmpty && ds.all Char.isDigit then some ((digitsVal ds : Int)) else none
  | ds =>
    if !ds.isEmpty && ds.all Char.isDigit then some ((digitsVal ds : Int)) else none

/-- A parsed JSON value (numbers beyond integers never matter here: no claim
inspects a numeric payload). -/
inductive Json : Type where
  | null : Json
  | bool : Bool → Json
  | num : Int → Json
  | str : Str → Json
  | arr : List Json → Json
  | obj : List (Str × Json) → Json

/-- Dictionary lookup on a parsed JSON object (`d[k]` / `d.get(k)` /
`k in d`): keys of a `json.load`ed dict are unique, so first match is fine. -/
def jLookup (fields : List (Str × Json)) (key : Str) : Option Json :=
  match fields with
  | [] => none
  | (k, v) :: rest => if k = key then some v else jLookup rest key

/-- The `'messages'` key. -/
def kMessages : Str := ['m', 'e', 's', 's', 'a', 'g', 'e', 's']

/-- The `'author'` key. -/
def kAuthor : Str := ['a', 'u', 't', 'h', 'o', 'r']

/-- The `'name'` key. -/
def kName : Str := ['n', 'a', 'm', 'e']

/-- The `'content'` key. -/
def kContent : Str := ['c', 'o', 'n', 't', 'e', 'n', 't']

/-- The literal `" said: "` spliced into every record text. -/
def saidSep : Str := [' ', 's', 'a', 'i', 'd', ':', ' ']

/-- The literal `'all'` keyword. -/
def allWord : Str := ['a', 'l', 'l']

/-- One export file: its basename and its parsed content (`none` models a
JSON parse failure or an I/O read failure when opening the file). -/
structure PFile where
  name : Str
  content : Option Json

/-- A NormalizedRecord: the `Document` built in `main` (text, plus the
`author` and `source_file` metadata). -/
structure Record where
  text : Str
  author : Str
  source_file : Str
deriving DecidableEq

/-- Top-level shape check of `main` and `get_unique_authors`:
`isinstance(data, dict) and 'messages' in data and isinstance(data['messages'], list)`. -/
def getMessages (j : Json) : Option (List Json) :=
  match j with
  | .obj fields =>
    match jLookup fields kMessages with
    | some (.arr msgs) => some msgs
    | _ => none
  | _ => none

/-- The message list a file contributes, if it parses and has the right shape. -/
def fileMsgs (f : PFile) : Option (List Json) :=
  match f.content with
  | none => none
  | some data => getMessages data

/-- Processing of one message by the extraction loop (profiler.py 104-115).
`.error ()` models the `AttributeError` raised by `msg.get('author', {}).get('name')`
when `msg` is not a dict, or when its `'author'` value is present but not a
dict; `.ok none` is a silently skipped message; `.ok (some r)` emits `r`. -/
def extractMsg (fname : Str) (msg : Json) : Except Unit (Option Record) :=
  match msg with
  | .obj fields =>
    match (jLookup fields kAuthor).getD (.obj []) with
    | .obj afields =>
      match jLookup afields kName, jLookup fields kContent with
      | some (.str a), some (.str c) =>
        if (pyStrip a).isEmpty || (pyStrip c).isEmpty then .ok none
        else .ok (some ⟨a ++ saidSep ++ c, pyStrip a, fname⟩)
      | _, _ => .ok none
    | _ => .error ()
  | _ => .error ()

/-- Does processing this message raise inside the per-file loop? -/
def msgRaises (m : Json) : Bool :=
  match m with
  | .obj fields =>
    match (jLookup fields kAuthor).getD (.obj []) with
    | .obj _ => false
    | _ => true
  | _ => true

/-- The per-file message loop: records accumulate in order; the first raising
message aborts the rest of the file (the per-file `except` catches it), but
records appended before the exception are kept. -/
def processMessages (fname : Str) : List Json → List Record
  | [] => []
  | m :: rest =>
    match extractMsg fname m with
    | .error _ => []
    | .ok none => processMessages fname rest
    | .ok (some r) => r :: processMessages fname rest

/-- Records contributed by one file (zero when the file fails to parse or
has the wrong top-level shape). -/
def fileRecords (f : PFile) : List Record :=
  match fileMsgs f with
  | none => []
  | some msgs => processMessages f.name msgs

/-- The Record Extractor: `main`'s loop over all files, concatenating each
file's records in enumeration order. -/
def extractRecords (files : List PFile) : List Record :=
  files.foldr (fun f acc => fileRecords f ++ acc) []

/-- The per-file diagnostic of the extraction loop, when one is printed:
`FAILED to process <basename>` on a parse/read error or an in-loop
exception, `Skipping <basename>` on a wrong top-level shape.  Each
diagnostic names the offending file, which is all the claims use. -/
def fileDiag (f : PFile) : Option Str :=
  match f.content with
  | none => some f.name
  | some data =>
    match getMessages data with
    | none => some f.name
    | some msgs => if msgs.any msgRaises then some f.name else none

/-- All per-file diagnostics of one extraction run, in file order. -/
def extractWarnings (files : List PFile) : List Str :=
  files.filterMap fileDiag

/-- Author extraction from one message in `get_unique_authors` (lines 31-36):
guarded `isinstance` checks, so no exception is possible; returns the
trimmed name when the message qualifies. -/
def msgAuthor (m : Json) : Option Str :=
  match m with
  | .obj fields =>
    match jLookup fields kAuthor with
    | some (.obj afields) =>
      match jLookup afields kName with
      | some (.str s) => if (pyStrip s).isEmpty then none else some (pyStrip s)
      | _ => none
    | _ => none
  | _ => none

/-- Trimmed author names contributed by one file in catalog building. -/
def fileAuthorNames (f : PFile) : List Str :=
  match fileMsgs f with
  | none => []
  | some msgs => msgs.filterMap msgAuthor

/-- All author-name occurrences across a directory, in scan order. -/
def allAuthorNames (files : List PFile) : List Str :=
  files.foldr (fun f acc => fileAuthorNames f ++ acc) []

/-- A Python `set` modelled as a duplicate-free list: `s.add(x)` keeps the
element order of first insertion, which `sorted` later erases. -/
def pySetAdd {α : Type} [DecidableEq α] (l : List α) (x : α) : List α :=
  if x ∈ l then l else l ++ [x]

/-- The set of all elements of `l`, built by repeated `pySetAdd`. -/
def pySet {α : Type} [DecidableEq α] (l : List α) : List α :=
  l.foldl pySetAdd []

/-- The `authors` set accumulated by `get_unique_authors`. -/
def authorsSet (files : List PFile) : List Str :=
  pySet (allAuthorNames files)

/-- Lexicographic comparison of Python strings (`s <= t` by code point,
a proper suffix extension being larger), as used by `sorted`. -/
def lexLe : Str → Str → Bool
  | [], _ => true
  | _ :: _, [] => false
  | a :: as, b :: bs => if a < b then true else if b < a then false else lexLe as bs

/-- `get_unique_authors`: `sorted(list(authors))`, the catalog as a
lexicographically sorted list of distinct trimmed author names. -/
def get_unique_authors (files : List PFile) : List Str :=
  (authorsSet files).insertionSort (fun s t => lexLe s t = true)

/-- The 0-based indices one comma-token contributes in `parse_selection`
(lines 52-73), `n` being the catalog size: a range `a-b` passing
`not (start > end or start < 1 or end > len(authors))` contributes
`start-1 .. end-1`; a single integer `k` with `1 <= k <= n` contributes
`k-1`; everything else (including every `ValueError`) contributes nothing.
A contributing range yields its indices in ascending order, as
`range(start, end + 1)` does. -/
def partIndices (n : Nat) (rawPart : Str) : List Nat :=
  if (pyStrip rawPart).isEmpty then []
  else if (pyStrip rawPart).contains '-' then
    match pySplit '-' (pyStrip rawPart) with
    | [a, b] =>
      match pyInt a, pyInt b with
      | some av, some bv =>
        if av > bv ∨ av < 1 ∨ bv > (n : Int) then []
        else (List.range' av.toNat (bv.toNat + 1 - av.toNat)).map (fun i => i - 1)
      | _, _ => []
    | _ => []
  else
    match pyInt (pyStrip rawPart) with
    | some k => if k < 1 ∨ k > (n : Int) then [] else [k.toNat - 1]
    | none => []

/-- The warning printed for one comma-token, when any: every non-empty token
that fails its validity test is reported by its stripped text. -/
def partWarning (n : Nat) (rawPart : Str) : Option Str :=
  if (pyStrip rawPart).isEmpty then none
  else if (pyStrip rawPart).contains '-' then
    match pySplit '-' (pyStrip rawPart) with
    | [a, b] =>
      match pyInt a, pyInt b with
      | some av, some bv =>
        if av > bv ∨ av < 1 ∨ bv > (n : Int) then some (pyStrip rawPart) else none
      | _, _ => some (pyStrip rawPart)
    | _ => some (pyStrip rawPart)
  else
    match pyInt (pyStrip rawPart) with
    | some k => if k < 1 ∨ k > (n : Int) then some (pyStrip rawPart) else none
    | none => some (pyStrip rawPart)

/-- The token loop of `parse_selection` over an explicit token list:
each token's indices are added to the `selected_indices` set in turn. -/
def selectedIndicesFromParts (n : Nat) (parts : List Str) : List Nat :=
  parts.foldl (fun acc p => (partIndices n p).foldl pySetAdd acc) []

/-- The `selected_indices` set after the token loop of `parse_selection`. -/
def selectedIndices (s : Str) (n : Nat) : List Nat :=
  selectedIndicesFromParts n (pySplit ',' s)

/-- `parse_selection`: `[authors[i] for i in sorted(list(selected_indices))]`
(the in-bounds invariant for the subscript is proved below). -/
def parse_selection (s : Str) (authors : List Str) : List Str :=
  ((selectedIndices s authors.length).insertionSort (· ≤ ·)).map
    (fun i => authors.getD i [])

/-- All token warnings of one `parse_selection` run, in token order. -/
def selectionWarnings (s : Str) (n : Nat) : List Str :=
  (pySplit ',' s).filterMap (partWarning n)

/-- The selection step of `main` (lines 154-159): the read line is stripped;
a case-insensitive `'all'` bypasses the parser and takes the whole catalog,
anything else goes through `parse_selection`. -/
def resolveSelection (rawInput : Str) (authors : List Str) : List Str :=
  let userInput := pyStrip rawInput
  if pyLower userInput = allWord then authors
  else parse_selection userInput authors

/-!  Spec-side definitions.  The following definitions restate, in the
spec's own words, what the selection grammar and the extraction count are
supposed to be; the refinement theorems below compare them with the
embedded code. -/

/-- Spec reading of one selection token (spec §4.3): an integer literal `k`
is valid iff `1 ≤ k ≤ N` and selects index `k-1`; a range `a-b` is valid
iff `1 ≤ a ≤ b ≤ N` and selects `a-1 .. b-1` inclusive; empty or
whitespace-only tokens are ignored; any other token selects nothing. -/
def specTokenIndices (n : Nat) (rawToken : Str) : List Nat :=
  if (pyStrip rawToken).isEmpty then []
  else if (pyStrip rawToken).contains '-' then
    match pySplit '-' (pyStrip rawToken) with
    | [a, b] =>
      match pyInt a, pyInt b with
      | some av, some bv =>
        if 1 ≤ av ∧ av ≤ bv ∧ bv ≤ (n : Int) then
          (List.range' av.toNat (bv.toNat + 1 - av.toNat)).map (fun i => i - 1)
        else []
      | _, _ => []
    | _ => []
  else
    match pyInt (pyStrip rawToken) with
    | some k => if 1 ≤ k ∧ k ≤ (n : Int) then [k.toNat - 1] else []
    | none => []

/-- Spec reading of a whole selection: does any token of `s` select index `i`? -/
def specSelects (n : Nat) (s : Str) (i : Nat) : Bool :=
  (pySplit ',' s).any (fun t => decide (i ∈ specTokenIndices n t))

/-- Spec reading of the parser's result: the selected 0-based indices,
deduplicated, in ascending index order, mapped back to catalog names. -/
def specParse (s : Str) (authors : List Str) : List Str :=
  ((List.range authors.length).filter (specSelects authors.length s)).map
    (fun i => authors.getD i [])

/-- Spec validity predicate for one token (spec §4.3): a token is valid iff
it is an in-range integer literal or an ordered in-range range. -/
def specTokenValid (n : Nat) (rawToken : Str) : Bool :=
  if (pyStrip rawToken).contains '-' then
    match pySplit '-' (pyStrip rawToken) with
    | [a, b] =>
      match pyInt a, pyInt b with
      | some av, some bv => decide (1 ≤ av ∧ av ≤ bv ∧ bv ≤ (n : Int))
      | _, _ => false
    | _ => false
  else
    match pyInt (pyStrip rawToken) with
    | some k => decide (1 ≤ k ∧ k ≤ (n : Int))
    | none => false

/-- Spec reading of a qualifying message (spec §4.1 step 3): `author.name`
is a string that is non-empty after trimming, and `content` is a string
that is non-empty after trimming. -/
def specQualifies (m : Json) : Bool :=
  match m with
  | .obj fields =>
    match jLookup fields kAuthor with
    | some (.obj afields) =>
      match jLookup afields kName, jLookup fields kContent with
      | some (.str a), some (.str c) => !(pyStrip a).isEmpty && !(pyStrip c).isEmpty
      | _, _ => false
    | _ => false
  | _ => false

/-- Qualifying messages of one file, per the spec's counting property. -/
def fileQualCount (f : PFile) : Nat :=
  match fileMsgs f with
  | none => 0
  | some msgs => msgs.countP specQualifies

/-- Qualifying messages across a whole directory. -/
def qualCount (files : List PFile) : Nat :=
  files.foldr (fun f k => fileQualCount f + k) 0

/-- A file that contributes nothing: JSON parse failure, I/O failure, or a
top level that is not a mapping with a `'messages'` list. -/
def badFile (f : PFile) : Bool := (fileMsgs f).isNone

/-!  Concrete fixtures used by the claims. -/

/-- A six-name catalog. -/
def cat6 : List Str := [['u'], ['v'], ['w'], ['x'], ['y'], ['z']]

/-- A three-name catalog. -/
def cat3 : List Str := [['p'], ['q'], ['r']]

/-- The selection string `"1,3-5"`. -/
def tok135 : Str := ['1', ',', '3', '-', '5']

/-- The selection string `"5-3"`. -/
def tok53 : Str := ['5', '-', '3']

/-- The selection string `"abc, 2"`. -/
def tokAbc2 : Str := ['a', 'b', 'c', ',', ' ', '2']

/-- Helper for counting: the record (if any) a non-raising message emits. -/
def msgRecord (fname : Str) (m : Json) : Option Record :=
  match m with
  | .obj fields =>
    match jLookup fields kAuthor with
    | some (.obj afields) =>
      match jLookup afields kName, jLookup fields kContent with
      | some (.str a), some (.str c) =>
        if (pyStrip a).isEmpty || (pyStrip c).isEmpty then none
        else some ⟨a ++ saidSep ++ c, pyStrip a, fname⟩
      | _, _ => none
    | _ => none
  | _ => none

/-!  Concrete extraction fixtures. -/

/-- A well-formed message: author `"ann"`, content `"hi"`. -/
def msgAnnHi : Json :=
  .obj [(kAuthor, .obj [(kName, .str ['a', 'n', 'n'])]), (kContent, .str ['h', 'i'])]

/-- A well-formed export file holding `msgAnnHi`. -/
def fxGood : PFile := ⟨['g', '.', 'j'], some (.obj [(kMessages, .arr [msgAnnHi])])⟩

/-- The record extracted from `fxGood`. -/
def recAnnHi : Record :=
  ⟨['a', 'n', 'n'] ++ saidSep ++ ['h', 'i'], ['a', 'n', 'n'], ['g', '.', 'j']⟩

/-- A file whose JSON fails to parse (or whose read fails). -/
def fxCorrupt : PFile := ⟨['b', 'a', 'd'], none⟩

/-- A message with an author but no content. -/
def msgCarl : Json := .obj [(kAuthor, .obj [(kName, .str ['C', 'a', 'r', 'l'])])]

/-- A file whose only message has an author but no content. -/
def fxCarl : PFile := ⟨['c'], some (.obj [(kMessages, .arr [msgCarl])])⟩

/-- A file whose messages list holds a non-mapping element before a
qualifying message: processing it raises mid-file. -/
def fxBadMsg : PFile := ⟨['x'], some (.obj [(kMessages, .arr [.num 0, msgAnnHi])])⟩

/-- A qualifying message whose author name carries surrounding whitespace. -/
def msgBobPad : Json :=
  .obj [(kAuthor, .obj [(kName, .str [' ', 'B', 'o', 'b', ' '])]), (kContent, .str ['h', 'i'])]

/-- A file holding `msgBobPad`. -/
def fxPad : PFile := ⟨['p'], some (.obj [(kMessages, .arr [msgBobPad])])⟩

/-- The record extracted from `fxPad`. -/
def recBobPad : Record :=
  ⟨[' ', 'B', 'o', 'b', ' '] ++ saidSep ++ ['h', 'i'], ['B', 'o', 'b'], ['p']⟩

/-!  Helper lemmas about the set model. -/

lemma mem_pySetAdd {α : Type} [DecidableEq α] {l : List α} {x y : α} :
    x ∈ pySetAdd l y ↔ x ∈ l ∨ x = y := by
  unfold pySetAdd
  by_cases h : y ∈ l
  · simp only [if_pos h]
    exact ⟨Or.inl, fun hx => hx.elim id (fun he => he ▸ h)⟩
  · simp [if_neg h]

lemma nodup_pySetAdd {α : Type} [DecidableEq α] {l : List α} (y : α) (h : l.Nodup) :
    (pySetAdd l y).Nodup := by
  unfold pySetAdd
  split
  · exact h
  · next hy => simpa using List.Nodup.append h (List.nodup_singleton y) (by simpa using hy)

lemma mem_foldl_pySetAdd {α : Type} [DecidableEq α] (l : List α) (acc : List α) (x : α) :
    x ∈ l.foldl pySetAdd acc ↔ x ∈ acc ∨ x ∈ l := by
  induction l generalizing acc with
  | nil => simp
  | cons a t ih => simp [List.foldl_cons, ih, mem_pySetAdd, or_assoc, or_comm, or_left_comm]

lemma nodup_foldl_pySetAdd {α : Type} [DecidableEq α] (l : List α) (acc : List α)
    (h : acc.Nodup) : (l.foldl pySetAdd acc).Nodup := by
  induction l generalizing acc with
  | nil => exact h
  | cons a t ih => exact ih _ (nodup_pySetAdd a h)

lemma mem_pySet {α : Type} [DecidableEq α] {l : List α} {x : α} :
    x ∈ pySet l ↔ x ∈ l := by
  unfold pySet
  rw [mem_foldl_pySetAdd]
  simp

lemma nodup_pySet {α : Type} [DecidableEq α] (l : List α) : (pySet l).Nodup :=
  nodup_foldl_pySetAdd l [] List.nodup_nil

/-!  Lexicographic comparison is a decidable total order. -/

lemma lexLe_cons_iff {a b : Char} {as bs : Str} :
    lexLe (a :: as) (b :: bs) = true ↔ a < b ∨ (a = b ∧ lexLe as bs = true) := by
  by_cases h1 : a < b
  · simp [lexLe, h1]
  · by_cases h2 : b < a
    · have hne : a ≠ b := ne_of_gt h2
      simp [lexLe, h1, h2, hne]
    · have heq : a = b := le_antisymm (not_lt.mp h2) (not_lt.mp h1)
      simp [lexLe, h1, h2, heq]

lemma lexLe_total : ∀ s t : Str, lexLe s t = true ∨ lexLe t s = true := by
  intro s
  induction s with
  | nil => intro t; left; rfl
  | cons a as ih =>
    intro t
    cases t with
    | nil => right; rfl
    | cons b bs =>
      rcases lt_trichotomy a b with h | h | h
      · left; exact lexLe_cons_iff.mpr (Or.inl h)
      · subst h
        rcases ih bs with h' | h'
        · left; exact lexLe_cons_iff.mpr (Or.inr ⟨rfl, h'⟩)
        · right; exact lexLe_cons_iff.mpr (Or.inr ⟨rfl, h'⟩)
      · right; exact lexLe_cons_iff.mpr (Or.inl h)

lemma lexLe_trans : ∀ s t u : Str, lexLe s t = true → lexLe t u = true → lexLe s u = true := by
  intro s
  induction s with
  | nil => intro t u _ _; rfl
  | cons a as ih =>
    intro t u hst htu
    cases t with
    | nil => simp [lexLe] at hst
    | cons b bs =>
      cases u with
      | nil => simp [lexLe] at htu
      | cons c cs =>
        rcases lexLe_cons_iff.mp hst with hab | ⟨hab, hst'⟩ <;>
          rcases lexLe_cons_iff.mp htu with hbc | ⟨hbc, htu'⟩
        · exact lexLe_cons_iff.mpr (Or.inl (lt_trans hab hbc))
        · exact lexLe_cons_iff.mpr (Or.inl (hbc ▸ hab))
        · exact lexLe_cons_iff.mpr (Or.inl (hab ▸ hbc))
        · exact lexLe_cons_iff.mpr (Or.inr ⟨hab.trans hbc, ih bs cs hst' htu'⟩)

lemma lexLe_antisymm : ∀ s t : Str, lexLe s t = true → lexLe t s = true → s = t := by
  intro s
  induction s with
  | nil =>
    intro t _ hts
    cases t with
    | nil => rfl
    | cons b bs => simp [lexLe] at hts
  | cons a as ih =>
    intro t hst hts
    cases t with
    | nil => simp [lexLe] at hst
    | cons b bs =>
      rcases lexLe_cons_iff.mp hst with hab | ⟨hab, hst'⟩ <;>
        rcases lexLe_cons_iff.mp hts with hba | ⟨hba, hts'⟩
      · exact absurd hba (lt_asymm hab)
      · exact absurd (hba ▸ hab) (lt_irrefl b)
      · exact absurd (hab ▸ hba) (lt_irrefl b)
      · rw [hab, ih bs hst' hts']

instance : IsTotal Str (fun s t => lexLe s t = true) := ⟨lexLe_total⟩

instance : IsTrans Str (fun s t => lexLe s t = true) := ⟨lexLe_trans⟩

instance : IsAntisymm Str (fun s t => lexLe s t = true) := ⟨lexLe_antisymm⟩

/-!  Sorting a duplicate-free list of in-bounds indices ascending is the same
as filtering `range n` by membership. -/

lemma insertionSort_eq_range_filter (l : List Nat) (n : Nat) (hn : l.Nodup)
    (hb : ∀ i ∈ l, i < n) :
    l.insertionSort (· ≤ ·) = (List.range n).filter (fun i => decide (i ∈ l)) := by
  have hperm : List.Perm (l.insertionSort (· ≤ ·))
      ((List.range n).filter (fun i => decide (i ∈ l))) := by
    rw [List.perm_ext_iff_of_nodup ((List.perm_insertionSort _ l).nodup_iff.mpr hn)
      ((List.nodup_range n).filter _)]
    intro a
    simp only [List.mem_insertionSort, List.mem_filter, List.mem_range,
      decide_eq_true_eq]
    exact ⟨fun ha => ⟨hb a ha, ha⟩, fun h => h.2⟩
  exact List.eq_of_perm_of_sorted hperm (List.sorted_insertionSort _ l)
    (List.Pairwise.filter _ (List.sorted_le_range n))

/-!  Parser lemmas. -/


lemma partIndices_eq_spec (n : Nat) (p : Str) : partIndices n p = specTokenIndices n p := by
  unfold partIndices specTokenIndices
  by_cases h0 : (pyStrip p).isEmpty
  · simp [h0]
  · simp only [h0, Bool.false_eq_true, if_false]
    by_cases h1 : (pyStrip p).contains '-'
    · simp only [h1, if_true]
      rcases hsp : pySplit '-' (pyStrip p) with _ | ⟨a, _ | ⟨b, _ | ⟨c, rest⟩⟩⟩ <;>
        dsimp only <;> try rfl
      rcases ha : pyInt a with _ | av <;> rcases hb : pyInt b with _ | bv <;>
        dsimp only <;> try rfl
      by_cases hc : (1 : Int) ≤ av ∧ av ≤ bv ∧ bv ≤ (n : Int)
      · rw [if_neg (by omega), if_pos hc]
      · rw [if_pos (by omega), if_neg hc]
    · simp only [h1, Bool.false_eq_true, if_false]
      rcases hk : pyInt (pyStrip p) with _ | k <;> dsimp only <;> try rfl
      by_cases hc : (1 : Int) ≤ k ∧ k ≤ (n : Int)
      · rw [if_neg (by omega), if_pos hc]
      · rw [if_pos (by omega), if_neg hc]

lemma specTokenIndices_lt (n : Nat) (p : Str) : ∀ i ∈ specTokenIndices n p, i < n := by
  intro i hi
  unfold specTokenIndices at hi
  by_cases h0 : (pyStrip p).isEmpty
  · simp [h0] at hi
  · simp only [h0, Bool.false_eq_true, if_false] at hi
    by_cases h1 : (pyStrip p).contains '-'
    · simp only [h1, if_true] at hi
      rcases hsp : pySplit '-' (pyStrip p) with _ | ⟨a, _ | ⟨b, _ | ⟨c, rest⟩⟩⟩ <;>
        rw [hsp] at hi <;> try simp at hi
      rcases ha : pyInt a with _ | av <;> rw [ha] at hi <;> try simp at hi
      rcases hb : pyInt b with _ | bv <;> rw [hb] at hi <;> try simp at hi
      obtain ⟨h2, j, hj, hij⟩ := hi
      omega
    · simp only [h1, Bool.false_eq_true, if_false] at hi
      rcases hk : pyInt (pyStrip p) with _ | k <;> rw [hk] at hi <;> try simp at hi
      omega

lemma partIndices_lt (n : Nat) (p : Str) : ∀ i ∈ partIndices n p, i < n := by
  rw [partIndices_eq_spec]
  exact specTokenIndices_lt n p

lemma specTokenIndices_nil_of_invalid (n : Nat) (p : Str) (h : specTokenValid n p = false) :
    specTokenIndices n p = [] := by
  unfold specTokenIndices
  unfold specTokenValid at h
  by_cases h0 : (pyStrip p).isEmpty
  · simp [h0]
  · simp only [h0, Bool.false_eq_true, if_false]
    by_cases h1 : (pyStrip p).contains '-'
    · simp only [h1, if_true] at h ⊢
      rcases hsp : pySplit '-' (pyStrip p) with _ | ⟨a, _ | ⟨b, _ | ⟨c, rest⟩⟩⟩ <;>
        rw [hsp] at h <;> (try dsimp only at h ⊢) <;> try rfl
      rcases ha : pyInt a with _ | av <;> rw [ha] at h <;> (try dsimp only at h ⊢) <;> try rfl
      rcases hb : pyInt b with _ | bv <;> rw [hb] at h <;> (try dsimp only at h ⊢) <;> try rfl
      simp only [decide_eq_false_iff_not] at h
      rw [if_neg h]
    · simp only [h1, Bool.false_eq_true, if_false] at h ⊢
      rcases hk : pyInt (pyStrip p) with _ | k <;> rw [hk] at h <;> (try dsimp only at h ⊢) <;> try rfl
      simp only [decide_eq_false_iff_not] at h
      rw [if_neg h]

lemma partIndices_nil_of_invalid (n : Nat) (p : Str) (h : specTokenValid n p = false) :
    partIndices n p = [] := by
  rw [partIndices_eq_spec]
  exact specTokenIndices_nil_of_invalid n p h

lemma partWarning_some_of_invalid (n : Nat) (p : Str) (h0 : (pyStrip p).isEmpty = false)
    (h : specTokenValid n p = false) : partWarning n p = some (pyStrip p) := by
  unfold partWarning
  unfold specTokenValid at h
  simp only [h0, Bool.false_eq_true, if_false]
  by_cases h1 : (pyStrip p).contains '-'
  · simp only [h1, if_true] at h ⊢
    rcases hsp : pySplit '-' (pyStrip p) with _ | ⟨a, _ | ⟨b, _ | ⟨c, rest⟩⟩⟩ <;>
      rw [hsp] at h <;> (try dsimp only at h ⊢) <;> try rfl
    rcases ha : pyInt a with _ | av <;> rw [ha] at h <;> (try dsimp only at h ⊢) <;> try rfl
    rcases hb : pyInt b with _ | bv <;> rw [hb] at h <;> (try dsimp only at h ⊢) <;> try rfl
    simp only [decide_eq_false_iff_not] at h
    rw [if_pos (by omega)]
  · simp only [h1, Bool.false_eq_true, if_false] at h ⊢
    rcases hk : pyInt (pyStrip p) with _ | k <;> rw [hk] at h <;> (try dsimp only at h ⊢) <;> try rfl
    simp only [decide_eq_false_iff_not] at h
    rw [if_pos (by omega)]

lemma mem_selectedIndicesFromParts_aux (n : Nat) (parts : List Str) (acc : List Nat)
    (i : Nat) :
    i ∈ parts.foldl (fun a p => (partIndices n p).foldl pySetAdd a) acc ↔
      i ∈ acc ∨ ∃ p ∈ parts, i ∈ partIndices n p := by
  induction parts generalizing acc with
  | nil => simp
  | cons q qs ih =>
    rw [List.foldl_cons, ih, mem_foldl_pySetAdd]
    simp only [List.mem_cons]
    constructor
    · rintro ((h | h) | ⟨p, hp, hi⟩)
      · exact Or.inl h
      · exact Or.inr ⟨q, Or.inl rfl, h⟩
      · exact Or.inr ⟨p, Or.inr hp, hi⟩
    · rintro (h | ⟨p, (rfl | hp), hi⟩)
      · exact Or.inl (Or.inl h)
      · exact Or.inl (Or.inr hi)
      · exact Or.inr ⟨p, hp, hi⟩

lemma mem_selectedIndices {s : Str} {n i : Nat} :
    i ∈ selectedIndices s n ↔ ∃ p ∈ pySplit ',' s, i ∈ partIndices n p := by
  unfold selectedIndices selectedIndicesFromParts
  rw [mem_selectedIndicesFromParts_aux]
  simp

lemma nodup_selectedIndices (s : Str) (n : Nat) : (selectedIndices s n).Nodup := by
  unfold selectedIndices selectedIndicesFromParts
  generalize pySplit ',' s = parts
  have key : ∀ (acc : List Nat), acc.Nodup →
      (parts.foldl (fun a p => (partIndices n p).foldl pySetAdd a) acc).Nodup := by
    induction parts with
    | nil => exact fun acc h => h
    | cons q qs ih => exact fun acc h => ih _ (nodup_foldl_pySetAdd _ acc h)
  exact key [] List.nodup_nil

lemma selectedIndices_lt (s : Str) (n : Nat) : ∀ i ∈ selectedIndices s n, i < n := by
  intro i hi
  rcases mem_selectedIndices.mp hi with ⟨p, _, hip⟩
  exact partIndices_lt n p i hip

lemma getD_mem_of_lt {α : Type} (l : List α) (d : α) {i : Nat} (h : i < l.length) :
    l.getD i d ∈ l := by
  rw [List.getD_eq_getElem l d h]
  exact List.getElem_mem h

lemma mem_selectedIndices_iff_specSelects (s : Str) (n i : Nat) :
    i ∈ selectedIndices s n ↔ specSelects n s i = true := by
  rw [mem_selectedIndices]
  unfold specSelects
  rw [List.any_eq_true]
  constructor
  · rintro ⟨p, hp, hi⟩
    exact ⟨p, hp, by rw [← partIndices_eq_spec]; simpa using hi⟩
  · rintro ⟨p, hp, hi⟩
    refine ⟨p, hp, ?_⟩
    rw [partIndices_eq_spec]
    simpa using hi

/-- C2: the parser's result is the deduplicated set of indices selected by
the valid tokens, mapped back to catalog names in ascending index order
(not input order); on `"1,3-5"` against a six-name catalog it selects
indices 0, 2, 3, 4 ascending. -/
theorem parse_selection_sorted_dedup_spec :
    (∀ (s : Str) (authors : List Str), parse_selection s authors = specParse s authors)
    ∧ parse_selection tok135 cat6 = [['u'], ['w'], ['x'], ['y']]
    ∧ parse_selection ['3', ',', '1'] cat3 = [['p'], ['r']] := by
  refine ⟨?_, by decide, by decide⟩
  intro s authors
  unfold parse_selection specParse
  rw [insertionSort_eq_range_filter _ authors.length (nodup_selectedIndices _ _)
    (selectedIndices_lt _ _)]
  congr 1
  apply List.filter_congr
  intro i _
  rw [Bool.eq_iff_iff, decide_eq_true_iff]
  exact mem_selectedIndices_iff_specSelects s authors.length i

/-- C2 witness: the general refinement applied at the concrete example. -/
theorem parse_selection_sorted_dedup_spec_witness :
    parse_selection tok135 cat6 = specParse tok135 cat6 :=
  parse_selection_sorted_dedup_spec.1 tok135 cat6

/-- C9: the parser never fails: every index in the accumulated set is a
valid 0-based catalog index (so the final subscript never raises), and
every returned name is a member of the catalog. -/
theorem parse_selection_safe :
    ∀ (s : Str) (authors : List Str),
      (∀ i ∈ selectedIndices s authors.length, i < authors.length)
      ∧ (∀ name ∈ parse_selection s authors, name ∈ authors) := by
  intro s authors
  refine ⟨selectedIndices_lt s authors.length, ?_⟩
  intro name hname
  unfold parse_selection at hname
  rcases List.mem_map.mp hname with ⟨i, hi, rfl⟩
  rw [List.mem_insertionSort] at hi
  exact getD_mem_of_lt authors [] (selectedIndices_lt s authors.length i hi)

/-- C9 witness: the safety theorem applied at a concrete selection. -/
theorem parse_selection_safe_witness :
    ['q'] ∈ cat3 :=
  (parse_selection_safe tokAbc2 cat3).2 ['q'] (by decide)

/-- C3: a token failing its validity predicate contributes no index, is
reported by a warning naming its (stripped) text, and the remaining tokens
are still processed; `"5-3"` against six names yields nothing with a
warning, and `"abc, 2"` against three names yields exactly the name at
index 1, with a warning naming `"abc"`. -/
theorem invalid_tokens_dropped :
    (∀ (n : Nat) (p : Str), specTokenValid n p = false →
        partIndices n p = [] ∧
        ((pyStrip p).isEmpty = false → partWarning n p = some (pyStrip p)))
    ∧ (∀ (n : Nat) (parts1 parts2 : List Str) (p : Str), specTokenValid n p = false →
        selectedIndicesFromParts n (parts1 ++ p :: parts2) =
          selectedIndicesFromParts n (parts1 ++ parts2))
    ∧ parse_selection tok53 cat6 = []
    ∧ selectionWarnings tok53 6 = [tok53]
    ∧ parse_selection tokAbc2 cat3 = [['q']]
    ∧ selectionWarnings tokAbc2 3 = [['a', 'b', 'c']] := by
  refine ⟨?_, ?_, by decide, by decide, by decide, by decide⟩
  · intro n p h
    exact ⟨partIndices_nil_of_invalid n p h,
      fun h0 => partWarning_some_of_invalid n p h0 h⟩
  · intro n parts1 parts2 p h
    unfold selectedIndicesFromParts
    simp [List.foldl_append, partIndices_nil_of_invalid n p h]

/-- C3 witness: the drop property applied at the concrete invalid token. -/
theorem invalid_tokens_dropped_witness :
    partIndices 6 tok53 = [] ∧ partWarning 6 tok53 = some tok53 :=
  let h := invalid_tokens_dropped.1 6 tok53 (by decide)
  ⟨h.1, h.2 (by decide)⟩

/-- C4: a selection input that equals `'all'` case-insensitively bypasses
the token grammar and returns the whole catalog unchanged. -/
theorem selection_all_bypass (rawInput : Str) (authors : List Str)
    (h : pyLower (pyStrip rawInput) = allWord) :
    resolveSelection rawInput authors = authors := by
  unfold resolveSelection
  simp only [h, if_pos]

/-- C4 witness: `" ALl "` selects the whole catalog. -/
theorem selection_all_bypass_witness :
    resolveSelection [' ', 'A', 'L', 'l', ' '] cat3 = cat3 :=
  selection_all_bypass [' ', 'A', 'L', 'l', ' '] cat3 (by decide)

/-!  Extractor and catalog lemmas. -/

lemma extractRecords_cons (f : PFile) (files : List PFile) :
    extractRecords (f :: files) = fileRecords f ++ extractRecords files := rfl

lemma extractRecords_append (l1 l2 : List PFile) :
    extractRecords (l1 ++ l2) = extractRecords l1 ++ extractRecords l2 := by
  induction l1 with
  | nil => rfl
  | cons f fs ih =>
    rw [List.cons_append, extractRecords_cons, extractRecords_cons, ih, List.append_assoc]

lemma mem_extractRecords {files : List PFile} {r : Record} :
    r ∈ extractRecords files ↔ ∃ f ∈ files, r ∈ fileRecords f := by
  induction files with
  | nil => simp [extractRecords]
  | cons f fs ih =>
    rw [extractRecords_cons, List.mem_append, ih]
    simp only [List.mem_cons]
    constructor
    · rintro (h | ⟨g, hg, hr⟩)
      · exact ⟨f, Or.inl rfl, h⟩
      · exact ⟨g, Or.inr hg, hr⟩
    · rintro ⟨g, (rfl | hg), hr⟩
      · exact Or.inl hr
      · exact Or.inr ⟨g, hg, hr⟩

/-- Inversion of an emitted record: the message it came from is a mapping
whose `'author'` value is a mapping holding a string name non-empty after
trimming, whose `'content'` is a string non-empty after trimming, and the
record fields are built exactly as in the code. -/
lemma extractMsg_ok_some {fname : Str} {m : Json} {r : Record}
    (h : extractMsg fname m = .ok (some r)) :
    ∃ fields afields a c,
      m = .obj fields
      ∧ jLookup fields kAuthor = some (.obj afields)
      ∧ jLookup afields kName = some (.str a)
      ∧ jLookup fields kContent = some (.str c)
      ∧ (pyStrip a).isEmpty = false
      ∧ (pyStrip c).isEmpty = false
      ∧ r = ⟨a ++ saidSep ++ c, pyStrip a, fname⟩ := by
  cases m with
  | null => simp [extractMsg] at h
  | bool b => simp [extractMsg] at h
  | num i => simp [extractMsg] at h
  | str s => simp [extractMsg] at h
  | arr items => simp [extractMsg] at h
  | obj fields =>
    unfold extractMsg at h
    dsimp only at h
    rcases hau : jLookup fields kAuthor with _ | av
    · rw [hau] at h
      simp [jLookup] at h
    · rw [hau] at h
      cases av with
      | null => dsimp only [Option.getD] at h; simp at h
      | bool b => dsimp only [Option.getD] at h; simp at h
      | num i => dsimp only [Option.getD] at h; simp at h
      | str s => dsimp only [Option.getD] at h; simp at h
      | arr items => dsimp only [Option.getD] at h; simp at h
      | obj afields =>
        dsimp only [Option.getD] at h
        rcases hn : jLookup afields kName with _ | (_ | bb | ii | a | aa | oo) <;>
          rcases hc : jLookup fields kContent with _ | (_ | bb2 | ii2 | c | aa2 | oo2) <;>
          rw [hn, hc] at h <;> (try dsimp only at h) <;> try simp at h
        by_cases hea : pyStrip a = []
        · rw [if_pos (Or.inl hea)] at h
          simp at h
        · by_cases hec : pyStrip c = []
          · rw [if_pos (Or.inr hec)] at h
            simp at h
          · rw [if_neg (by tauto)] at h
            injection h with h1
            injection h1 with h2
            refine ⟨fields, afields, a, c, rfl, hau, hn, hc, by simp [hea], by simp [hec], ?_⟩
            rw [← h2]
            simp [List.append_assoc]

lemma mem_processMessages {fname : Str} {msgs : List Json} {r : Record}
    (h : r ∈ processMessages fname msgs) :
    ∃ m ∈ msgs, extractMsg fname m = .ok (some r) := by
  induction msgs with
  | nil => simp [processMessages] at h
  | cons m rest ih =>
    unfold processMessages at h
    rcases he : extractMsg fname m with _ | o <;> rw [he] at h <;> try dsimp only at h
    · simp at h
    · cases o with
      | none =>
        rcases ih h with ⟨m2, hm2, he2⟩
        exact ⟨m2, List.mem_cons_of_mem _ hm2, he2⟩
      | some r0 =>
        rcases List.mem_cons.mp h with rfl | hr
        · exact ⟨m, List.mem_cons_self m rest, he⟩
        · rcases ih hr with ⟨m2, hm2, he2⟩
          exact ⟨m2, List.mem_cons_of_mem _ hm2, he2⟩

lemma mem_fileRecords {f : PFile} {r : Record} (h : r ∈ fileRecords f) :
    ∃ msgs, fileMsgs f = some msgs ∧ ∃ m ∈ msgs, extractMsg f.name m = .ok (some r) := by
  unfold fileRecords at h
  rcases hm : fileMsgs f with _ | msgs <;> rw [hm] at h <;> try dsimp only at h
  · simp at h
  · exact ⟨msgs, rfl, mem_processMessages h⟩

lemma extractMsg_eq_of_not_raises {fname : Str} {m : Json} (h : msgRaises m = false) :
    extractMsg fname m = .ok (msgRecord fname m) := by
  unfold msgRaises at h
  unfold extractMsg msgRecord
  cases m with
  | null => simp at h
  | bool b => simp at h
  | num i => simp at h
  | str s => simp at h
  | arr items => simp at h
  | obj fields =>
    dsimp only at h ⊢
    rcases hau : jLookup fields kAuthor with _ | av
    · rw [hau] at h
      dsimp only [Option.getD] at h ⊢
      simp [jLookup]
    · rw [hau] at h
      dsimp only [Option.getD] at h ⊢
      cases av with
      | null => exact Bool.noConfusion h
      | bool b => exact Bool.noConfusion h
      | num i => exact Bool.noConfusion h
      | str s => exact Bool.noConfusion h
      | arr items => exact Bool.noConfusion h
      | obj afields =>
        dsimp only
        rcases hn : jLookup afields kName with _ | (_ | b2 | i2 | a | a2 | o2) <;>
          rcases hc : jLookup fields kContent with _ | (_ | b3 | i3 | c | a3 | o3) <;>
          (try simp only [hn]) <;> (try simp only [hc]) <;> (try dsimp only) <;> try rfl
        by_cases hea : (pyStrip a).isEmpty <;> by_cases hec : (pyStrip c).isEmpty <;>
          simp [hea, hec]

lemma msgRecord_isSome (fname : Str) (m : Json) :
    (msgRecord fname m).isSome = specQualifies m := by
  unfold msgRecord specQualifies
  cases m with
  | null => rfl
  | bool b => rfl
  | num i => rfl
  | str s => rfl
  | arr items => rfl
  | obj fields =>
    dsimp only
    rcases hau : jLookup fields kAuthor with _ | (_ | bb | ii | ss | aa | afields) <;>
      try rfl
    rcases hn : jLookup afields kName with _ | (_ | b2 | i2 | a | a2 | o2) <;>
      rcases hc : jLookup fields kContent with _ | (_ | b3 | i3 | c | a3 | o3) <;>
      (try simp only [hn]) <;> (try simp only [hc]) <;> (try dsimp only) <;> try rfl
    by_cases hea : (pyStrip a).isEmpty <;> by_cases hec : (pyStrip c).isEmpty <;>
      simp [hea, hec]

lemma processMessages_length {fname : Str} {msgs : List Json}
    (h : ∀ m ∈ msgs, msgRaises m = false) :
    (processMessages fname msgs).length = msgs.countP specQualifies := by
  induction msgs with
  | nil => rfl
  | cons m rest ih =>
    have hm := h m (List.mem_cons_self m rest)
    have hrest := ih (fun x hx => h x (List.mem_cons_of_mem m hx))
    unfold processMessages
    rw [extractMsg_eq_of_not_raises hm, List.countP_cons]
    rcases ho : msgRecord fname m with _ | r
    · have hq : specQualifies m = false := by
        rw [← msgRecord_isSome fname m, ho]
        rfl
      rw [hq]
      simpa using hrest
    · have hq : specQualifies m = true := by
        rw [← msgRecord_isSome fname m, ho]
        rfl
      rw [hq]
      simpa using hrest

lemma fileRecords_length (f : PFile)
    (h : ∀ m ∈ (fileMsgs f).getD [], msgRaises m = false) :
    (fileRecords f).length = fileQualCount f := by
  unfold fileRecords fileQualCount
  rcases hm : fileMsgs f with _ | msgs
  · rfl
  · rw [hm] at h
    exact processMessages_length h

lemma fileAuthorNames_eq (f : PFile) {msgs : List Json} (hm : fileMsgs f = some msgs) :
    fileAuthorNames f = msgs.filterMap msgAuthor := by
  unfold fileAuthorNames
  rw [hm]

lemma mem_allAuthorNames {files : List PFile} {a : Str} :
    a ∈ allAuthorNames files ↔ ∃ f ∈ files, a ∈ fileAuthorNames f := by
  induction files with
  | nil => simp [allAuthorNames]
  | cons f fs ih =>
    show a ∈ fileAuthorNames f ++ allAuthorNames fs ↔ _
    rw [List.mem_append, ih]
    simp only [List.mem_cons]
    constructor
    · rintro (h | ⟨g, hg, ha⟩)
      · exact ⟨f, Or.inl rfl, h⟩
      · exact ⟨g, Or.inr hg, ha⟩
    · rintro ⟨g, (rfl | hg), ha⟩
      · exact Or.inl ha
      · exact Or.inr ⟨g, hg, ha⟩

lemma msgAuthor_obj {fields afields : List (Str × Json)} {a : Str}
    (hau : jLookup fields kAuthor = some (.obj afields))
    (hn : jLookup afields kName = some (.str a))
    (hea : (pyStrip a).isEmpty = false) :
    msgAuthor (.obj fields) = some (pyStrip a) := by
  unfold msgAuthor
  simp only [hau, hn, hea]
  rfl

/-- C1 counterexample: one file whose messages list is `[0, goodMsg]`: the
non-mapping element raises mid-file, so the qualifying message after it is
never indexed, and the record count undershoots the qualifying count. -/
theorem extractor_count_counterexample :
    decide ((extractRecords [fxBadMsg]).length = qualCount [fxBadMsg]) = false := by
  decide

/-- C1 (amended): the record count equals the qualifying-message count for
every directory in which no message of a well-shaped file raises inside the
per-file loop (every element of every `'messages'` list is a mapping whose
`'author'` value, when present, is a mapping). -/
theorem extractor_count_amended :
    ∀ files : List PFile,
      (∀ f ∈ files, ∀ m ∈ (fileMsgs f).getD [], msgRaises m = false) →
      (extractRecords files).length = qualCount files := by
  intro files
  induction files with
  | nil => intro _; rfl
  | cons f fs ih =>
    intro h
    rw [extractRecords_cons, List.length_append,
      fileRecords_length f (h f (List.mem_cons_self f fs)),
      ih (fun g hg => h g (List.mem_cons_of_mem f hg))]
    rfl

/-- C1 witness: the amended count theorem at a concrete two-file directory. -/
theorem extractor_count_amended_witness :
    (extractRecords [fxGood, fxCarl]).length = qualCount [fxGood, fxCarl] :=
  extractor_count_amended [fxGood, fxCarl] (by decide)

/-- C5: the author catalog is lexicographically sorted, duplicate-free,
holds exactly the trimmed author names found in the files, and is invariant
under any permutation of the file enumeration order. -/
theorem author_catalog_sorted_deterministic (files files' : List PFile)
    (hperm : List.Perm files files') :
    List.Sorted (fun s t => lexLe s t = true) (get_unique_authors files)
    ∧ (get_unique_authors files).Nodup
    ∧ (∀ a, a ∈ get_unique_authors files ↔ a ∈ allAuthorNames files)
    ∧ get_unique_authors files = get_unique_authors files' := by
  have hmem : ∀ (fs : List PFile) (a : Str),
      a ∈ get_unique_authors fs ↔ a ∈ allAuthorNames fs := by
    intro fs a
    unfold get_unique_authors
    rw [List.mem_insertionSort]
    exact mem_pySet
  have hnodup : ∀ fs : List PFile, (get_unique_authors fs).Nodup := by
    intro fs
    unfold get_unique_authors
    exact (List.perm_insertionSort _ _).nodup_iff.mpr (nodup_pySet _)
  have hsorted : ∀ fs : List PFile,
      List.Sorted (fun s t => lexLe s t = true) (get_unique_authors fs) :=
    fun fs => List.sorted_insertionSort _ _
  refine ⟨hsorted files, hnodup files, hmem files, ?_⟩
  refine List.eq_of_perm_of_sorted ?_ (hsorted files) (hsorted files')
  rw [List.perm_ext_iff_of_nodup (hnodup files) (hnodup files')]
  intro a
  rw [hmem files a, hmem files' a, mem_allAuthorNames, mem_allAuthorNames]
  constructor
  · rintro ⟨f, hf, ha⟩
    exact ⟨f, hperm.subset hf, ha⟩
  · rintro ⟨f, hf, ha⟩
    exact ⟨f, hperm.symm.subset hf, ha⟩

/-- C5 witness: scanning two files in reverse order yields the same catalog. -/
theorem author_catalog_sorted_deterministic_witness :
    get_unique_authors [fxGood, fxCarl] = get_unique_authors [fxCarl, fxGood] :=
  (author_catalog_sorted_deterministic [fxGood, fxCarl] [fxCarl, fxGood]
    (List.Perm.swap fxCarl fxGood [])).2.2.2

/-- C6: every emitted record has a non-empty author (the trimmed name) and
a non-empty text. -/
theorem record_fields_nonempty :
    ∀ (files : List PFile) (r : Record), r ∈ extractRecords files →
      r.author ≠ [] ∧ r.text ≠ [] := by
  intro files r hr
  rcases mem_extractRecords.mp hr with ⟨f, _, hrf⟩
  rcases mem_fileRecords hrf with ⟨msgs, _, m, _, he⟩
  rcases extractMsg_ok_some he with ⟨fields, afields, a, c, _, _, _, _, hea, _, rfl⟩
  constructor
  · intro hnil
    have ha : pyStrip a = [] := hnil
    rw [ha] at hea
    exact Bool.noConfusion hea
  · intro hnil
    have ht : a ++ saidSep ++ c = [] := hnil
    simp [saidSep] at ht

/-- C6 witness: the invariant at the concrete record of `fxGood`. -/
theorem record_fields_nonempty_witness :
    recAnnHi.author ≠ [] ∧ recAnnHi.text ≠ [] :=
  record_fields_nonempty [fxGood] recAnnHi (by decide)

/-- C7: a file that fails to parse, fails to read, or lacks a top-level
`'messages'` list contributes no record, produces a diagnostic naming it,
and leaves every other file's records untouched; one good file plus one
corrupted file yield exactly the good file's records and one warning. -/
theorem file_error_isolation :
    (∀ f : PFile, badFile f = true → fileRecords f = [] ∧ fileDiag f = some f.name)
    ∧ (∀ (files1 files2 : List PFile) (f : PFile), badFile f = true →
        extractRecords (files1 ++ f :: files2) = extractRecords (files1 ++ files2))
    ∧ extractRecords [fxGood, fxCorrupt] = fileRecords fxGood
    ∧ extractRecords [fxGood, fxCorrupt] = [recAnnHi]
    ∧ extractWarnings [fxGood, fxCorrupt] = [['b', 'a', 'd']] := by
  have hbad : ∀ f : PFile, badFile f = true → fileRecords f = [] := by
    intro f hb
    unfold badFile at hb
    rw [Option.isNone_iff_eq_none] at hb
    unfold fileRecords
    rw [hb]
  refine ⟨?_, ?_, by decide, by decide, by decide⟩
  · intro f hb
    refine ⟨hbad f hb, ?_⟩
    unfold badFile at hb
    rw [Option.isNone_iff_eq_none] at hb
    unfold fileMsgs at hb
    unfold fileDiag
    rcases hc : f.content with _ | data
    · rfl
    · rw [hc] at hb
      dsimp only at hb
      simp [hb]
  · intro files1 files2 f hb
    rw [extractRecords_append, extractRecords_append, extractRecords_cons, hbad f hb]
    simp

/-- C7 witness: removing the corrupted file does not change the output. -/
theorem file_error_isolation_witness :
    extractRecords ([fxGood] ++ fxCorrupt :: []) =
      extractRecords ([fxGood] ++ ([] : List PFile)) :=
  file_error_isolation.2.1 [fxGood] [] fxCorrupt (by decide)

/-- C8 counterexample: with author name `" Bob "` (whitespace around it),
the emitted text is built from the raw name, not from the trimmed author
field: it is not the case that every record of `fxPad` satisfies
`text = author ++ " said: " ++ content`. -/
theorem record_text_trimmed_counterexample :
    decide (∀ r ∈ extractRecords [fxPad],
      r.text = r.author ++ saidSep ++ ['h', 'i']) = false := by
  decide

/-- C8 (amended): every emitted record originates from a message of one of
the scanned files, and its fields are built exactly from that message: with
`a` the message's raw (untrimmed) `author.name` string and `c` its raw
`content` string, the record is
`⟨a ++ " said: " ++ c, pyStrip a, f.name⟩` — the text uses the raw name
(not the trimmed author field), the author field is the trimmed name
(non-empty, as is the trimmed content), and source_file is the basename of
the originating file. -/
theorem record_text_uses_raw_author :
    ∀ (files : List PFile) (r : Record), r ∈ extractRecords files →
      ∃ f ∈ files, ∃ msgs, fileMsgs f = some msgs ∧
        ∃ m ∈ msgs, ∃ fields afields a c,
          m = .obj fields
          ∧ jLookup fields kAuthor = some (.obj afields)
          ∧ jLookup afields kName = some (.str a)
          ∧ jLookup fields kContent = some (.str c)
          ∧ (pyStrip a).isEmpty = false
          ∧ (pyStrip c).isEmpty = false
          ∧ r = ⟨a ++ saidSep ++ c, pyStrip a, f.name⟩ := by
  intro files r hr
  rcases mem_extractRecords.mp hr with ⟨f, hf, hrf⟩
  rcases mem_fileRecords hrf with ⟨msgs, hm, m, hmm, he⟩
  rcases extractMsg_ok_some he with ⟨fields, afields, a, c, rfl, hau, hn, hc, hea, hec, rfl⟩
  exact ⟨f, hf, msgs, hm, .obj fields, hmm, fields, afields, a, c, rfl, hau, hn, hc,
    hea, hec, rfl⟩

/-- C8 witness: the amended shape at the concrete record of `fxPad`, whose
author name `" Bob "` carries whitespace, so the raw-name binding is
exercised where it differs from the trimmed author field. -/
theorem record_text_uses_raw_author_witness :
    ∃ f ∈ [fxPad], ∃ msgs, fileMsgs f = some msgs ∧
      ∃ m ∈ msgs, ∃ fields afields a c,
        m = .obj fields
        ∧ jLookup fields kAuthor = some (.obj afields)
        ∧ jLookup afields kName = some (.str a)
        ∧ jLookup fields kContent = some (.str c)
        ∧ (pyStrip a).isEmpty = false
        ∧ (pyStrip c).isEmpty = false
        ∧ recBobPad = ⟨a ++ saidSep ++ c, pyStrip a, f.name⟩ :=
  record_text_uses_raw_author [fxPad] recBobPad (by decide)

/-- C10: the trimmed author of every emitted record is in the author set
built from the same files; the converse fails, witnessed by a file whose
only message has an author but no content. -/
theorem record_author_in_catalog :
    (∀ (files : List PFile) (r : Record), r ∈ extractRecords files →
        r.author ∈ authorsSet files)
    ∧ (['C', 'a', 'r', 'l'] ∈ authorsSet [fxCarl])
    ∧ extractRecords [fxCarl] = [] := by
  refine ⟨?_, by decide, by decide⟩
  intro files r hr
  rcases mem_extractRecords.mp hr with ⟨f, hf, hrf⟩
  rcases mem_fileRecords hrf with ⟨msgs, hm, m, hmm, he⟩
  rcases extractMsg_ok_some he with ⟨fields, afields, a, c, rfl, hau, hn, hc, hea, hec, rfl⟩
  show pyStrip a ∈ authorsSet files
  unfold authorsSet
  rw [mem_pySet, mem_allAuthorNames]
  refine ⟨f, hf, ?_⟩
  rw [fileAuthorNames_eq f hm]
  exact List.mem_filterMap.mpr ⟨_, hmm, msgAuthor_obj hau hn hea⟩

/-- C10 witness: the inclusion at the concrete record of `fxGood`. -/
theorem record_author_in_catalog_witness :
    recAnnHi.author ∈ authorsSet [fxGood] :=
  record_author_in_catalog.1 [fxGood] recAnnHi (by decide)
